/-
Verification of the stratified-sampling and MoCo memory-bank core of the
predictive-analytics-lab/conduit repository.

The Python sources are shallowly embedded: pure functions become Lean
functions over Nat / Int / Rat and lists, fallible code returns Except,
and the stateful memory bank is explicit state passing on a structure.
Definitions whose Python source is absent from the repository snapshot
(kit's StratifiedSampler iteration internals, the MoCo MemoryBank and
concat_all_gather helpers) are modelled from the design spec and marked
as such in their doc comments.
-/
import Mathlib

namespace Conduit

/-! ## Stratified batch sampler -/

/-- Ceiling division on naturals, the exact-arithmetic meaning of
math.ceil(a / b) for non-negative integers. -/
def ceilDiv (a b : Nat) : Nat := (a + b - 1) / b

/-- Modelled from the spec: the group index table of kit's StratifiedSampler
(whose source is absent from src) — the ordered sequence of sample indices
belonging to group g. -/
def groupIdxs (gids : List Nat) (g : Nat) : List Nat :=
  (List.range gids.length).filter (fun i => decide (gids.getD i 0 = g))

/-- Modelled from the spec: the distinct observed group ids, in ascending
order. -/
def groupList (gids : List Nat) : List Nat :=
  (List.range (gids.foldr max 0 + 1)).filter (fun g => decide (g ∈ gids))

/-- Modelled from the spec: the slice of batch t contributed by group g with
shuffle = False — the next num_samples_per_group * multiplier g indices from
group g's cursor, wrapping to the start of the group's index list. -/
def groupSlice (gids : List Nat) (nspg : Nat) (mult : Nat → Nat) (t g : Nat) : List Nat :=
  (List.range (nspg * mult g)).map
    (fun j =>
      (groupIdxs gids g).getD ((t * (nspg * mult g) + j) % (groupIdxs gids g).length) 0)

/-- Modelled from the spec: batch t of the stratified sampler — per-group
slices concatenated in ascending group-id order. -/
def sampleBatch (gids : List Nat) (nspg : Nat) (mult : Nat → Nat) (t : Nat) : List Nat :=
  ((groupList gids).map (groupSlice gids nspg mult t)).flatten

/-- Modelled from the spec: the groupwise_idxs attribute inherited from kit's
StratifiedSampler — (index list, multiplier) pairs, one per group. -/
def groupwise_idxs (gids : List Nat) (mult : Nat → Nat) : List (List Nat × Nat) :=
  (groupList gids).map (fun g => (groupIdxs gids g, mult g))

/-- SizedStratifiedSampler.__len__ (src/bolts/data/datasets/utils.py:224-233):
the maximum over groups of ceil(len(idxs) / (mult * num_samples_per_group)). -/
def maxEpochLen (gids : List Nat) (nspg : Nat) (mult : Nat → Nat) : Nat :=
  ((groupwise_idxs gids mult).map (fun p => ceilDiv p.1.length (p.2 * nspg))).foldr max 0

/-! ## Group-id extraction -/

/-- extract_labels_from_dataset (src/bolts/data/datasets/utils.py:147-178) for
a base dataset whose optional s and y label arrays are given. Both
conditional branches of the closure assign the local _s (the second one from
the dataset's s attribute, an error when that attribute is absent), and the
local _y is never reassigned. -/
def extract_labels_from_dataset (s y : Option (List Int)) :
    Except String (Option (List Int) × Option (List Int)) :=
  match y with
  | Option.some _ =>
    match s with
    | Option.some sv => Except.ok (Option.some sv, Option.none)
    | Option.none => Except.error "AttributeError: dataset has no attribute s"
  | Option.none => Except.ok (s, Option.none)

/-- get_group_ids (src/bolts/data/datasets/utils.py:181-195). The local
group_ids variable is initialised to None immediately before being tested
for None, so the multiply-and-add combination branch is unreachable. -/
def get_group_ids (s y : Option (List Int)) : Except String (List Int) :=
  match extract_labels_from_dataset s y with
  | Except.error e => Except.error e
  | Except.ok (s_all, y_all) =>
    let group_ids : Option (List Int) := Option.none
    match s_all with
    | Option.none =>
      match y_all with
      | Option.none =>
        Except.error "Unable to compute group ids for dataset because no labels could be extracted."
      | Option.some ys => Except.ok ys
    | Option.some ss =>
      match group_ids with
      | Option.none => Except.ok ss
      | Option.some gs =>
        Except.ok (List.zipWith (fun gv sv => gv * (ss.dedup.length : Int) + sv) gs ss)

/-! ## MoCo memory bank -/

/-- Modelled from the spec: the MoCo memory bank (its source file,
bolts/models/self_supervised/moco/utils.py, is absent from src) — a fixed
array of rows plus a write cursor. -/
structure MemoryBank (α : Type) where
  memory : List α
  ptr : Nat

/-- The bank's fixed capacity. -/
def MemoryBank.capacity {α : Type} (mb : MemoryBank α) : Nat := mb.memory.length

/-- Modelled from the spec: push writes the B rows starting at the current
cursor as a contiguous block, split into a tail segment starting at ptr and
a head segment starting at 0 when the write straddles the end, then advances
ptr = (ptr + B) % capacity. -/
def MemoryBank.push {α : Type} (mb : MemoryBank α) (values : List α) : MemoryBank α :=
  { memory :=
      if mb.memory.length - mb.ptr < values.length then
        values.drop (mb.memory.length - mb.ptr)
          ++ (mb.memory.take mb.ptr).drop (values.length - (mb.memory.length - mb.ptr))
          ++ values.take (mb.memory.length - mb.ptr)
      else
        mb.memory.take mb.ptr ++ values ++ mb.memory.drop (mb.ptr + values.length),
    ptr := (mb.ptr + values.length) % mb.memory.length }

/-- Modelled from the spec: read returns the full buffer contents. -/
def MemoryBank.read {α : Type} (mb : MemoryBank α) : List α := mb.memory

/-! ## MoCo training-step dataflow -/

/-- Sum of squares of a row, the squared L2 norm. -/
def sumSq (x : List ℚ) : ℚ := (x.map (fun a => a * a)).sum

/-- Dot product of two rows. -/
def dot (x y : List ℚ) : ℚ := (List.zipWith (fun a b => a * b) x y).sum

/-- Exact-arithmetic semantics of F.normalize on a row: y is the (unique)
positive scalar multiple of x whose L2 norm is 1, the scalar c being the
inverse norm of x. -/
def IsL2Normalization (x y : List ℚ) : Prop :=
  ∃ c : ℚ, 0 < c ∧ c ^ 2 * sumSq x = 1 ∧ y = x.map (fun a => c * a)

/-- Every row of the matrix has unit L2 norm. -/
def UnitRows (m : List (List ℚ)) : Prop := ∀ r ∈ m, sumSq r = 1

/-- Modelled from the spec: concat_all_gather (source absent from src) —
concatenation of the per-worker tensors. -/
def concat_all_gather (ms : List (List (List ℚ))) : List (List ℚ) := ms.flatten

/-- MoCoV2._batch_unshuffle_ddp (src/bolts/models/self_supervised/moco/lightning.py:184-201):
gather the per-worker matrices and select this worker's rows by the
unshuffle indices. -/
def batch_unshuffle_ddp (workerOuts : List (List (List ℚ))) (idxs : List Nat) : List (List ℚ) :=
  idxs.map (fun i => (concat_all_gather workerOuts).getD i [])

/-- The matrix handed to the memory bank by a _get_loss step
(src/bolts/models/self_supervised/moco/lightning.py:203-247): per-worker
normalized teacher outputs nouts, unshuffled per worker and gathered across
workers in ddp mode, the local worker's output otherwise. -/
def pushedKeys (useDdp : Bool) (nouts : List (List (List ℚ))) (idxss : List (List Nat))
    (w : Nat) : List (List ℚ) :=
  if useDdp then concat_all_gather (idxss.map (batch_unshuffle_ddp nouts))
  else nouts.getD w []

/-- MoCoV2._dequeue_and_enqueue (src/bolts/models/self_supervised/moco/lightning.py:149-154):
gather the keys across workers in ddp mode, then push them to the bank.
Worker w's local keys are allKeys.getD w []. -/
def dequeue_and_enqueue (useDdp : Bool) (allKeys : List (List (List ℚ))) (w : Nat)
    (mb : MemoryBank (List ℚ)) : MemoryBank (List ℚ) :=
  let keys := if useDdp then concat_all_gather allKeys else allKeys.getD w []
  mb.push keys

/-- MoCoV2._get_loss (src/bolts/models/self_supervised/moco/lightning.py:203-247),
single-process path, with the row-normalized encoder outputs given: positive
logits are rowwise dot products, negative logits are dot products against a
snapshot of the bank's memory, the logits are divided by the temperature,
and the keys are enqueued only after the logits are computed. -/
def get_loss_step (temp : ℚ) (mb : MemoryBank (List ℚ))
    (studentOut teacherOut : List (List ℚ)) : List (List ℚ) × MemoryBank (List ℚ) :=
  let lPos := List.zipWith dot studentOut teacherOut
  let lNeg := studentOut.map (fun q => mb.memory.map (fun k => dot q k))
  let logits :=
    (List.zipWith (fun p ns => p :: ns) lPos lNeg).map (fun row => row.map (fun z => z / temp))
  (logits, mb.push teacherOut)

/-! ## CrossEntropy loss module -/

/-- The reduction enum of src/bolts/fair/losses/loss.py:13-16. -/
inductive ReductionType where
  | mean
  | none
  | sum
deriving DecidableEq

/-- kit.str_to_enum specialised to ReductionType (kit's source is absent from
src): convert a string to the member of that name, an error otherwise. -/
def str_to_enum (s : String) : Except String ReductionType :=
  if s = "mean" then Except.ok ReductionType.mean
  else if s = "none" then Except.ok ReductionType.none
  else if s = "sum" then Except.ok ReductionType.sum
  else Except.error "ValueError: value is not a valid member of ReductionType"

/-- Python equality between the reduction attribute (declared as enum-or-string)
and a string literal: an enum member never equals a string. -/
def reductionEqStr : ReductionType ⊕ String → String → Bool
  | Sum.inl _, _ => false
  | Sum.inr s, t => s == t

/-- The CrossEntropy module state (src/bolts/fair/losses/loss.py:19-35). -/
structure CrossEntropy where
  classWeight : Option (List ℚ)
  ignoreIndex : Int
  reduction : ReductionType ⊕ String

/-- CrossEntropy.__init__ (src/bolts/fair/losses/loss.py:22-35): a string
reduction argument is converted to the enum before being stored. -/
def CrossEntropy.init (classWeight : Option (List ℚ)) (ignoreIndex : Int)
    (reduction : ReductionType ⊕ String) : Except String CrossEntropy :=
  match reduction with
  | Sum.inl r => Except.ok ⟨classWeight, ignoreIndex, Sum.inl r⟩
  | Sum.inr s =>
    match str_to_enum s with
    | Except.ok r => Except.ok ⟨classWeight, ignoreIndex, Sum.inl r⟩
    | Except.error e => Except.error e

/-- The per-instance losses after the optional instance weighting of
src/bolts/fair/losses/loss.py:48-50. -/
def appliedWeight (losses : List ℚ) (instanceWeight : Option (List ℚ)) : List ℚ :=
  match instanceWeight with
  | Option.some w => List.zipWith (fun a b => a * b) losses w
  | Option.none => losses

/-- CrossEntropy.forward (src/bolts/fair/losses/loss.py:37-56), with the
per-instance losses returned by F.cross_entropy(reduction="none") given as
input; a scalar result is a singleton list. -/
def CrossEntropy.forward (ce : CrossEntropy) (losses : List ℚ)
    (instanceWeight : Option (List ℚ)) : List ℚ :=
  let losses1 := appliedWeight losses instanceWeight
  if reductionEqStr ce.reduction "mean" then [losses1.sum / (losses1.length : ℚ)]
  else if reductionEqStr ce.reduction "none" then losses1
  else [losses1.sum]

/-! ## Data-module length query -/

/-- The training-mode enum of kit.torch (declared in
src/conduit/data/datamodules/base.py via import). -/
inductive TrainingMode where
  | epoch
  | step
deriving DecidableEq

/-- Modelled from the spec: kit's num_batches_per_epoch — the number of
batches in one epoch, rounding down when drop_last and up otherwise. -/
def num_batches_per_epoch (numSamples batchSize : Nat) (dropLast : Bool) : Nat :=
  if dropLast then numSamples / batchSize else ceilDiv numSamples batchSize

/-- CdtDataModule.num_train_batches (src/conduit/data/datamodules/base.py:220-230):
an immediate error when the training mode is step, the per-epoch batch count
otherwise. -/
def num_train_batches (trainingMode : TrainingMode) (numTrainSamples trainBatchSize : Nat)
    (dropLast : Bool) : Except String Nat :=
  match trainingMode with
  | TrainingMode.step =>
    Except.error "num_train_batches can only be computed when training_mode is set to epoch."
  | TrainingMode.epoch =>
    Except.ok (num_batches_per_epoch numTrainSamples trainBatchSize dropLast)

/-! ## Helper lemmas -/

theorem getD_mem {α : Type} (l : List α) (n : Nat) (d : α) (h : n < l.length) :
    l.getD n d ∈ l := by
  rw [List.getD_eq_getElem l d h]
  exact List.getElem_mem h

theorem mem_le_foldr_max (l : List Nat) (x : Nat) (hx : x ∈ l) : x ≤ l.foldr max 0 := by
  induction l with
  | nil => cases hx
  | cons a tl ih =>
    rcases List.mem_cons.mp hx with rfl | hmem
    · exact Nat.le_max_left _ _
    · exact le_trans (ih hmem) (Nat.le_max_right _ _)

theorem foldr_max_mem (l : List Nat) (h : l ≠ []) : l.foldr max 0 ∈ l := by
  induction l with
  | nil => exact absurd rfl h
  | cons a tl ih =>
    cases tl with
    | nil => simp
    | cons b tl2 =>
      have hmem := ih (by simp)
      rcases max_choice a ((b :: tl2).foldr max 0) with hc | hc
      · rw [List.foldr_cons, hc]; exact List.mem_cons_self _ _
      · rw [List.foldr_cons, hc]; exact List.mem_cons_of_mem _ hmem

theorem mem_groupList_iff (gids : List Nat) (g : Nat) : g ∈ groupList gids ↔ g ∈ gids := by
  unfold groupList
  rw [List.mem_filter]
  constructor
  · rintro ⟨-, hp⟩
    exact of_decide_eq_true hp
  · intro hg
    refine ⟨List.mem_range.mpr ?_, decide_eq_true hg⟩
    exact Nat.lt_succ_of_le (mem_le_foldr_max gids g hg)

theorem groupList_sorted (gids : List Nat) : List.Sorted (· < ·) (groupList gids) :=
  List.Pairwise.filter _ (List.pairwise_lt_range _)

theorem groupList_nodup (gids : List Nat) : (groupList gids).Nodup :=
  (groupList_sorted gids).imp (fun h => Nat.ne_of_lt h)

theorem groupList_ne_nil (gids : List Nat) (h : gids ≠ []) : groupList gids ≠ [] := by
  cases gids with
  | nil => exact absurd rfl h
  | cons a tl =>
    exact List.ne_nil_of_mem ((mem_groupList_iff _ a).mpr (List.mem_cons_self a tl))

theorem groupIdxs_length_eq_count (gids : List Nat) (g : Nat) :
    (groupIdxs gids g).length = gids.count g := by
  induction gids with
  | nil => rfl
  | cons a tl ih =>
    have hcomp :
        ((fun i => decide ((a :: tl).getD i 0 = g)) ∘ Nat.succ)
          = (fun i => decide (tl.getD i 0 = g)) := by
      funext i
      simp [List.getD_cons_succ]
    unfold groupIdxs
    rw [List.length_cons, List.range_succ_eq_map, List.filter_cons, List.filter_map, hcomp]
    unfold groupIdxs at ih
    rw [List.getD_cons_zero, List.count_cons]
    by_cases hag : a = g
    · rw [if_pos (decide_eq_true hag), List.length_cons, List.length_map, ih,
        if_pos (by simp [hag])]
    · rw [if_neg (by simpa using hag), List.length_map, ih, if_neg (by simp [hag])]
      omega

theorem groupIdxs_ne_nil (gids : List Nat) (g : Nat) (hg : g ∈ gids) :
    groupIdxs gids g ≠ [] := by
  obtain ⟨⟨i, hi⟩, hget⟩ := List.mem_iff_get.mp hg
  apply List.ne_nil_of_mem (a := i)
  unfold groupIdxs
  refine List.mem_filter.mpr ⟨List.mem_range.mpr hi, decide_eq_true ?_⟩
  rw [List.getD_eq_getElem _ _ hi]
  exact hget

theorem groupSlice_gid (gids : List Nat) (nspg : Nat) (mult : Nat → Nat) (t g : Nat)
    (hg : g ∈ gids) :
    ∀ x ∈ groupSlice gids nspg mult t g, gids.getD x 0 = g := by
  intro x hx
  unfold groupSlice at hx
  simp only [List.mem_map, List.mem_range] at hx
  obtain ⟨j, hj, rfl⟩ := hx
  have hne := groupIdxs_ne_nil gids g hg
  have hlen : 0 < (groupIdxs gids g).length := List.length_pos.mpr hne
  have hmem :
      (groupIdxs gids g).getD
          ((t * (nspg * mult g) + j) % (groupIdxs gids g).length) 0 ∈ groupIdxs gids g :=
    getD_mem _ _ _ (Nat.mod_lt _ hlen)
  have hfil := List.mem_filter.mp hmem
  exact of_decide_eq_true hfil.2

theorem groupSlice_length (gids : List Nat) (nspg : Nat) (mult : Nat → Nat) (t g : Nat) :
    (groupSlice gids nspg mult t g).length = nspg * mult g := by
  unfold groupSlice
  rw [List.length_map, List.length_range]

theorem sum_map_ite_single (L : List Nat) (g : Nat) (f : Nat → Nat) (hnd : L.Nodup)
    (hg : g ∈ L) :
    (L.map (fun x => if x = g then f x else 0)).sum = f g := by
  induction L with
  | nil => cases hg
  | cons a tl ih =>
    rw [List.map_cons, List.sum_cons]
    rcases List.mem_cons.mp hg with rfl | hmem
    · have hnotin : g ∉ tl := (List.nodup_cons.mp hnd).1
      have hz : (tl.map (fun x => if x = g then f x else 0)).sum = 0 := by
        apply List.sum_eq_zero
        intro x hx
        simp only [List.mem_map] at hx
        obtain ⟨b, hb, rfl⟩ := hx
        have hba : b ≠ g := fun h => hnotin (h ▸ hb)
        simp [hba]
      rw [if_pos rfl, hz]
      rfl
    · have hag : a ≠ g := by
        rintro rfl
        exact (List.nodup_cons.mp hnd).1 hmem
      rw [if_neg hag, ih (List.nodup_cons.mp hnd).2 hmem, Nat.zero_add]

/-! ## Claim theorems: stratified sampler -/

/-- C1: for every group-id vector and valid configuration
(num_samples_per_group positive; every observed group is non-empty by
construction), every batch of the stratified sampler contains exactly
num_samples_per_group * multiplier g indices belonging to group g, for every
group g, and the batch is the concatenation of the per-group slices in
ascending group-id order. -/
theorem sampler_batch_group_counts (gids : List Nat) (nspg : Nat) (mult : Nat → Nat)
    (t : Nat) (hn : 0 < nspg) :
    (∀ g ∈ groupList gids,
        (sampleBatch gids nspg mult t).countP (fun i => decide (gids.getD i 0 = g))
          = nspg * mult g)
    ∧ sampleBatch gids nspg mult t
        = ((groupList gids).map (groupSlice gids nspg mult t)).flatten
    ∧ List.Sorted (· < ·) (groupList gids) := by
  refine ⟨?_, rfl, groupList_sorted gids⟩
  intro g hg
  unfold sampleBatch
  rw [List.countP_flatten, List.map_map]
  have hmapeq :
      (groupList gids).map
          ((fun l => l.countP (fun i => decide (gids.getD i 0 = g)))
            ∘ groupSlice gids nspg mult t)
        = (groupList gids).map (fun x => if x = g then nspg * mult x else 0) := by
    apply List.map_congr_left
    intro g' hg'
    by_cases hgg : g' = g
    · subst hgg
      rw [if_pos rfl, Function.comp_apply, ← groupSlice_length gids nspg mult t g']
      apply List.countP_eq_length.mpr
      intro x hx
      exact decide_eq_true (groupSlice_gid gids nspg mult t g'
        ((mem_groupList_iff gids g').mp hg') x hx)
    · rw [if_neg hgg, Function.comp_apply]
      apply List.countP_eq_zero.mpr
      intro x hx
      have hxg := groupSlice_gid gids nspg mult t g'
        ((mem_groupList_iff gids g').mp hg') x hx
      simp only [decide_eq_true_eq]
      rw [hxg]
      exact hgg
  rw [hmapeq]
  exact sum_map_ite_single (groupList gids) g (fun x => nspg * mult x)
    (groupList_nodup gids) hg

/-- Witness for C1 at gids = [0, 0, 1], num_samples_per_group = 1,
all multipliers 1, batch 0. -/
theorem sampler_batch_group_counts_witness :
    (∀ g ∈ groupList [0, 0, 1],
        (sampleBatch [0, 0, 1] 1 (fun _ => 1) 0).countP
            (fun i => decide (([0, 0, 1] : List Nat).getD i 0 = g))
          = 1 * (fun _ : Nat => 1) g)
    ∧ sampleBatch [0, 0, 1] 1 (fun _ => 1) 0
        = ((groupList [0, 0, 1]).map (groupSlice [0, 0, 1] 1 (fun _ => 1) 0)).flatten
    ∧ List.Sorted (· < ·) (groupList [0, 0, 1]) :=
  sampler_batch_group_counts [0, 0, 1] 1 (fun _ => 1) 0 (by decide)

set_option maxRecDepth 10000 in
/-- C2: the epoch-mode length of SizedStratifiedSampler equals the maximum
over the observed groups g of ceil(group size / (multiplier g *
num_samples_per_group)); in particular, for group sizes 10 and 100 with
num_samples_per_group = 1 and all multipliers 1, the length is 100. -/
theorem sized_stratified_sampler_len (gids : List Nat) (nspg : Nat) (mult : Nat → Nat)
    (hne : gids ≠ []) (hn : 0 < nspg) :
    (∀ g ∈ groupList gids,
        ceilDiv (gids.count g) (mult g * nspg) ≤ maxEpochLen gids nspg mult)
    ∧ (∃ g ∈ groupList gids,
        maxEpochLen gids nspg mult = ceilDiv (gids.count g) (mult g * nspg))
    ∧ maxEpochLen (List.replicate 10 0 ++ List.replicate 100 1) 1 (fun _ => 1) = 100 := by
  have hunfold :
      maxEpochLen gids nspg mult
        = ((groupList gids).map
            (fun g => ceilDiv (gids.count g) (mult g * nspg))).foldr max 0 := by
    unfold maxEpochLen groupwise_idxs
    rw [List.map_map]
    congr 1
    apply List.map_congr_left
    intro g _
    simp [Function.comp_apply, groupIdxs_length_eq_count]
  refine ⟨?_, ?_, by decide⟩
  · intro g hg
    rw [hunfold]
    exact mem_le_foldr_max _ _ (List.mem_map_of_mem _ hg)
  · have hne2 :
        (groupList gids).map (fun g => ceilDiv (gids.count g) (mult g * nspg)) ≠ [] := by
      intro hempty
      exact groupList_ne_nil gids hne (List.map_eq_nil_iff.mp hempty)
    have hmem := foldr_max_mem _ hne2
    rw [List.mem_map] at hmem
    obtain ⟨g, hg, heq⟩ := hmem
    refine ⟨g, hg, ?_⟩
    rw [hunfold]
    exact heq.symm

/-- Witness for C2 at gids = [0, 1], num_samples_per_group = 1, all
multipliers 1. -/
theorem sized_stratified_sampler_len_witness :
    (∀ g ∈ groupList [0, 1],
        ceilDiv (([0, 1] : List Nat).count g) ((fun _ : Nat => 1) g * 1)
          ≤ maxEpochLen [0, 1] 1 (fun _ => 1))
    ∧ (∃ g ∈ groupList [0, 1],
        maxEpochLen [0, 1] 1 (fun _ => 1)
          = ceilDiv (([0, 1] : List Nat).count g) ((fun _ : Nat => 1) g * 1))
    ∧ maxEpochLen (List.replicate 10 0 ++ List.replicate 100 1) 1 (fun _ => 1) = 100 :=
  sized_stratified_sampler_len [0, 1] 1 (fun _ => 1) (by decide) (by decide)

/-! ## Memory-bank lemmas -/

theorem drop_append_ge {α : Type} (l1 l2 : List α) (n : Nat) (h : l1.length ≤ n) :
    (l1 ++ l2).drop n = l2.drop (n - l1.length) := by
  induction l1 generalizing n with
  | nil => simp
  | cons a tl ih =>
    cases n with
    | zero => simp at h
    | succ m =>
      have h2 : tl.length ≤ m := by simpa using h
      rw [List.cons_append, List.drop_succ_cons, ih m h2]
      congr 1
      simp

theorem MemoryBank.push_ptr {α : Type} (mb : MemoryBank α) (v : List α) :
    (mb.push v).ptr = (mb.ptr + v.length) % mb.memory.length := rfl

theorem MemoryBank.push_memory_of_fit {α : Type} (mb : MemoryBank α) (v : List α)
    (h : mb.ptr + v.length ≤ mb.memory.length) :
    (mb.push v).memory
      = mb.memory.take mb.ptr ++ v ++ mb.memory.drop (mb.ptr + v.length) := by
  simp only [MemoryBank.push]
  rw [if_neg (by omega)]

theorem MemoryBank.push_length_of_fit {α : Type} (mb : MemoryBank α) (v : List α)
    (h : mb.ptr + v.length ≤ mb.memory.length) :
    (mb.push v).memory.length = mb.memory.length := by
  rw [MemoryBank.push_memory_of_fit mb v h]
  have hple : mb.ptr ≤ mb.memory.length := by omega
  rw [List.length_append, List.length_append, List.length_take, List.length_drop,
    Nat.min_eq_left hple]
  omega

theorem foldl_push_block {α : Type} (B : Nat) (hB : 0 < B) (bs : List (List α)) :
    ∀ mb : MemoryBank α, (∀ b ∈ bs, b.length = B) → mb.ptr < mb.memory.length →
      mb.ptr + B * bs.length ≤ mb.memory.length →
      (bs.foldl MemoryBank.push mb).memory
          = mb.memory.take mb.ptr ++ bs.flatten ++ mb.memory.drop (mb.ptr + B * bs.length)
        ∧ (bs.foldl MemoryBank.push mb).ptr
          = (mb.ptr + B * bs.length) % mb.memory.length := by
  induction bs with
  | nil =>
    intro mb _ hptr _
    refine ⟨?_, ?_⟩
    · rw [List.foldl_nil, List.flatten_nil, List.append_nil, List.length_nil, Nat.mul_zero,
        Nat.add_zero, List.take_append_drop]
    · rw [List.foldl_nil, List.length_nil, Nat.mul_zero, Nat.add_zero, Nat.mod_eq_of_lt hptr]
  | cons b bs ih =>
    intro mb hlen hptr hfit
    have hBb : b.length = B := hlen b (List.mem_cons_self _ _)
    rw [List.length_cons, Nat.mul_succ] at hfit
    have hfitb : mb.ptr + b.length ≤ mb.memory.length := by rw [hBb]; omega
    have hmem1 := MemoryBank.push_memory_of_fit mb b hfitb
    have hlen1 := MemoryBank.push_length_of_fit mb b hfitb
    have hptr1 : (mb.push b).ptr = (mb.ptr + B) % mb.memory.length := by
      rw [MemoryBank.push_ptr, hBb]
    rw [List.foldl_cons]
    by_cases hcase : mb.ptr + B < mb.memory.length
    · have hptr1' : (mb.push b).ptr = mb.ptr + B := by rw [hptr1, Nat.mod_eq_of_lt hcase]
      have hlen' : ∀ x ∈ bs, x.length = B := fun x hx => hlen x (List.mem_cons_of_mem _ hx)
      have hptrlt' : (mb.push b).ptr < (mb.push b).memory.length := by
        rw [hptr1', hlen1]
        exact hcase
      have hfit' : (mb.push b).ptr + B * bs.length ≤ (mb.push b).memory.length := by
        rw [hptr1', hlen1]
        omega
      obtain ⟨ihm, ihp⟩ := ih (mb.push b) hlen' hptrlt' hfit'
      rw [hptr1'] at ihm ihp
      rw [hlen1] at ihp
      have hl1 : (mb.memory.take mb.ptr ++ b).length = mb.ptr + B := by
        rw [List.length_append, List.length_take, hBb, Nat.min_eq_left (by omega)]
      have htake : (mb.push b).memory.take (mb.ptr + B) = mb.memory.take mb.ptr ++ b := by
        rw [hmem1]
        exact List.take_left' hl1
      have hdrop : (mb.push b).memory.drop (mb.ptr + B + B * bs.length)
          = mb.memory.drop (mb.ptr + B + B * bs.length) := by
        rw [hmem1, drop_append_ge _ _ _ (by rw [hl1]; omega), hl1]
        have hsub : mb.ptr + B + B * bs.length - (mb.ptr + B) = B * bs.length := by omega
        rw [hsub, List.drop_drop]
        congr 1
        omega
      refine ⟨?_, ?_⟩
      · rw [ihm, htake, hdrop]
        have hidx : mb.ptr + B * (b :: bs).length = mb.ptr + B + B * bs.length := by
          rw [List.length_cons]
          ring
        rw [hidx, List.flatten_cons]
        simp [List.append_assoc]
      · rw [ihp]
        congr 1
        rw [List.length_cons]
        ring
    · have hmul0 : B * bs.length = 0 := by omega
      have hbs : bs = [] := by
        rcases Nat.mul_eq_zero.mp hmul0 with h0 | h0
        · omega
        · exact List.length_eq_zero.mp h0
      subst hbs
      rw [List.foldl_nil]
      have hone : B * ([b] : List (List α)).length = B := by simp
      refine ⟨?_, ?_⟩
      · rw [hmem1, List.flatten_cons, List.flatten_nil, List.append_nil, hone, hBb]
      · rw [hptr1, hone]

theorem getD_take_of_lt {α : Type} (l : List α) (n i : Nat) (d : α) (h : i < n) :
    (l.take n).getD i d = l.getD i d := by
  rw [List.getD_eq_getElem?_getD, List.getD_eq_getElem?_getD, List.getElem?_take_of_lt h]

theorem getD_drop {α : Type} (l : List α) (n i : Nat) (d : α) :
    (l.drop n).getD i d = l.getD (n + i) d := by
  rw [List.getD_eq_getElem?_getD, List.getD_eq_getElem?_getD, List.getElem?_drop]

theorem MemoryBank.push_getD {α : Type} (mb : MemoryBank α) (v : List α) (d : α) (j : Nat)
    (hptr : mb.ptr < mb.memory.length) (hv : v.length ≤ mb.memory.length)
    (hj : j < v.length) :
    (mb.push v).memory.getD ((mb.ptr + j) % mb.memory.length) d = v.getD j d := by
  by_cases hsplit : mb.memory.length - mb.ptr < v.length
  · have hmem : (mb.push v).memory
        = v.drop (mb.memory.length - mb.ptr)
          ++ (mb.memory.take mb.ptr).drop (v.length - (mb.memory.length - mb.ptr))
          ++ v.take (mb.memory.length - mb.ptr) := by
      simp only [MemoryBank.push]
      rw [if_pos hsplit]
    have hlen1 : (v.drop (mb.memory.length - mb.ptr)).length
        = v.length - (mb.memory.length - mb.ptr) := by
      rw [List.length_drop]
    have hlen2 :
        ((mb.memory.take mb.ptr).drop (v.length - (mb.memory.length - mb.ptr))).length
          = mb.ptr - (v.length - (mb.memory.length - mb.ptr)) := by
      rw [List.length_drop, List.length_take, Nat.min_eq_left (by omega)]
    have hlen12 :
        (v.drop (mb.memory.length - mb.ptr)
            ++ (mb.memory.take mb.ptr).drop (v.length - (mb.memory.length - mb.ptr))).length
          = mb.ptr := by
      rw [List.length_append, hlen1, hlen2]
      omega
    by_cases hjres : j < mb.memory.length - mb.ptr
    · have hlt : mb.ptr + j < mb.memory.length := by omega
      rw [Nat.mod_eq_of_lt hlt, hmem,
        List.getD_append_right _ _ _ _ (by rw [hlen12]; omega), hlen12]
      have hsub : mb.ptr + j - mb.ptr = j := by omega
      rw [hsub]
      exact getD_take_of_lt v _ j d hjres
    · have hslot : (mb.ptr + j) % mb.memory.length = j - (mb.memory.length - mb.ptr) := by
        have h1 : mb.ptr + j
            = mb.memory.length + (j - (mb.memory.length - mb.ptr)) := by omega
        rw [h1, Nat.add_mod_left]
        exact Nat.mod_eq_of_lt (by omega)
      rw [hslot, hmem,
        List.getD_append _ _ _ _ (by rw [List.length_append, hlen1, hlen2]; omega),
        List.getD_append _ _ _ _ (by rw [hlen1]; omega), getD_drop]
      congr 1
      omega
  · have hfit : mb.ptr + v.length ≤ mb.memory.length := by omega
    have hmem := MemoryBank.push_memory_of_fit mb v hfit
    have hlt : mb.ptr + j < mb.memory.length := by omega
    have hl1 : (mb.memory.take mb.ptr).length = mb.ptr := by
      rw [List.length_take, Nat.min_eq_left (by omega)]
    rw [Nat.mod_eq_of_lt hlt, hmem,
      List.getD_append _ _ _ _ (by rw [List.length_append, hl1]; omega),
      List.getD_append_right _ _ _ _ (by rw [hl1]; omega), hl1]
    congr 1
    omega

/-! ## Claim theorems: memory bank -/

/-- C4: a push writes the B rows of the batch at slots ptr, ptr+1, ...
modulo the capacity (the contiguous block, split when it straddles the end)
and advances ptr = (ptr + B) % capacity; consequently, pushing C/B batches
of size B from ptr = 0 leaves read() equal to the concatenation of all the
pushed batches — each pushed vector appearing exactly once — with ptr back
at 0. -/
theorem memory_bank_push_cycle {α : Type} (batches : List (List α)) (B : Nat)
    (mb0 : MemoryBank α) (hB : 0 < B) (hdvd : mb0.capacity % B = 0)
    (hlen : ∀ b ∈ batches, b.length = B) (hcount : batches.length = mb0.capacity / B)
    (hptr0 : mb0.ptr = 0) :
    (batches.foldl MemoryBank.push mb0).read = batches.flatten
    ∧ (batches.foldl MemoryBank.push mb0).ptr = 0
    ∧ (∀ (mb : MemoryBank α) (v : List α) (d : α) (j : Nat),
        mb.ptr < mb.capacity → v.length ≤ mb.capacity → j < v.length →
        (mb.push v).memory.getD ((mb.ptr + j) % mb.capacity) d = v.getD j d)
    ∧ ∀ (mb : MemoryBank α) (v : List α),
        (mb.push v).ptr = (mb.ptr + v.length) % mb.capacity := by
  simp only [MemoryBank.capacity] at hdvd hcount
  have hmain : (batches.foldl MemoryBank.push mb0).memory = batches.flatten
      ∧ (batches.foldl MemoryBank.push mb0).ptr = 0 := by
    by_cases hC0 : mb0.memory.length = 0
    · have hbs : batches = [] := by
        apply List.length_eq_zero.mp
        rw [hcount, hC0]
        simp
      subst hbs
      constructor
      · rw [List.foldl_nil, List.flatten_nil]
        exact List.length_eq_zero.mp hC0
      · rw [List.foldl_nil]
        exact hptr0
    · have hCpos : 0 < mb0.memory.length := Nat.pos_of_ne_zero hC0
      have hmul : B * batches.length = mb0.memory.length := by
        rw [hcount]
        exact Nat.mul_div_cancel' (Nat.dvd_of_mod_eq_zero hdvd)
      obtain ⟨hm, hp⟩ := foldl_push_block B hB batches mb0 hlen
        (by rw [hptr0]; exact hCpos) (by rw [hptr0, Nat.zero_add, hmul])
      constructor
      · rw [hm, hptr0, List.take_zero, List.nil_append]
        have hdropnil : mb0.memory.drop (0 + B * batches.length) = [] := by
          apply List.drop_eq_nil_of_le
          rw [Nat.zero_add, hmul]
        rw [hdropnil, List.append_nil]
      · rw [hp, hptr0, Nat.zero_add, hmul, Nat.mod_self]
  refine ⟨hmain.1, hmain.2, ?_, ?_⟩
  · intro mb v d j h1 h2 h3
    exact MemoryBank.push_getD mb v d j h1 h2 h3
  · intro mb v
    exact MemoryBank.push_ptr mb v

/-- Witness for C4 at capacity 4, batch size 2, two batches pushed from
ptr = 0. -/
theorem memory_bank_push_cycle_witness :
    (([[1, 2], [3, 4]] : List (List Nat)).foldl MemoryBank.push ⟨[0, 0, 0, 0], 0⟩).read
        = ([[1, 2], [3, 4]] : List (List Nat)).flatten
    ∧ (([[1, 2], [3, 4]] : List (List Nat)).foldl MemoryBank.push ⟨[0, 0, 0, 0], 0⟩).ptr = 0
    ∧ (∀ (mb : MemoryBank Nat) (v : List Nat) (d : Nat) (j : Nat),
        mb.ptr < mb.capacity → v.length ≤ mb.capacity → j < v.length →
        (mb.push v).memory.getD ((mb.ptr + j) % mb.capacity) d = v.getD j d)
    ∧ ∀ (mb : MemoryBank Nat) (v : List Nat),
        (mb.push v).ptr = (mb.ptr + v.length) % mb.capacity :=
  memory_bank_push_cycle [[1, 2], [3, 4]] 2 ⟨[0, 0, 0, 0], 0⟩ (by decide) (by decide)
    (by decide) (by decide) rfl

/-! ## MoCo dataflow lemmas -/

theorem sumSq_map_mul (c : ℚ) (x : List ℚ) :
    sumSq (x.map (fun a => c * a)) = c ^ 2 * sumSq x := by
  unfold sumSq
  rw [List.map_map]
  have hfun : ((fun a => a * a) ∘ fun a : ℚ => c * a) = fun a : ℚ => c ^ 2 * (a * a) := by
    funext a
    simp [Function.comp_apply]
    ring
  rw [hfun]
  exact List.sum_map_mul_left x (fun a => a * a) (c ^ 2)

theorem IsL2Normalization.unit {x y : List ℚ} (h : IsL2Normalization x y) : sumSq y = 1 := by
  obtain ⟨c, hc, hcx, rfl⟩ := h
  rw [sumSq_map_mul]
  exact hcx

theorem forall2_exists_left {α β : Type} {R : α → β → Prop} {l1 : List α} {l2 : List β}
    (h : List.Forall₂ R l1 l2) : ∀ b ∈ l2, ∃ a ∈ l1, R a b := by
  induction h with
  | nil =>
    intro b hb
    cases hb
  | cons hab htl ih =>
    intro b hb
    rcases List.mem_cons.mp hb with rfl | hmem
    · exact ⟨_, List.mem_cons_self _ _, hab⟩
    · obtain ⟨a, ha, har⟩ := ih b hmem
      exact ⟨a, List.mem_cons_of_mem _ ha, har⟩

theorem getD_mem_or_default {α : Type} (l : List α) (n : Nat) (d : α) :
    l.getD n d ∈ l ∨ l.getD n d = d := by
  by_cases h : n < l.length
  · exact Or.inl (getD_mem l n d h)
  · right
    rw [List.getD_eq_getElem?_getD, List.getElem?_eq_none (by omega)]
    rfl

theorem push_mem_cases {α : Type} (mb : MemoryBank α) (v : List α) (r : α)
    (hr : r ∈ (mb.push v).memory) : r ∈ v ∨ r ∈ mb.memory := by
  simp only [MemoryBank.push] at hr
  by_cases hif : mb.memory.length - mb.ptr < v.length
  · rw [if_pos hif] at hr
    rcases List.mem_append.mp hr with h1 | h2
    · rcases List.mem_append.mp h1 with h3 | h4
      · exact Or.inl (List.drop_subset _ _ h3)
      · exact Or.inr (List.take_subset _ _ (List.drop_subset _ _ h4))
    · exact Or.inl (List.take_subset _ _ h2)
  · rw [if_neg hif] at hr
    rcases List.mem_append.mp hr with h1 | h2
    · rcases List.mem_append.mp h1 with h3 | h4
      · exact Or.inr (List.take_subset _ _ h3)
      · exact Or.inl h4
    · exact Or.inr (List.drop_subset _ _ h2)

theorem unitRows_push (mb : MemoryBank (List ℚ)) (v : List (List ℚ))
    (hm : UnitRows mb.memory) (hv : UnitRows v) : UnitRows (mb.push v).memory := by
  intro r hr
  rcases push_mem_cases mb v r hr with h | h
  · exact hv r h
  · exact hm r h

theorem getD_map_of_lt {α β : Type} (f : α → β) (l : List α) (i : Nat) (d : β) (d' : α)
    (h : i < l.length) : (l.map f).getD i d = f (l.getD i d') := by
  rw [List.getD_eq_getElem (l.map f) d (by rw [List.length_map]; exact h),
    List.getD_eq_getElem l d' h]
  simp

theorem getD_zipWith_of_lt {α β γ : Type} (f : α → β → γ) (l1 : List α) (l2 : List β)
    (i : Nat) (d : γ) (d1 : α) (d2 : β) (h1 : i < l1.length) (h2 : i < l2.length) :
    (List.zipWith f l1 l2).getD i d = f (l1.getD i d1) (l2.getD i d2) := by
  rw [List.getD_eq_getElem _ d (by rw [List.length_zipWith]; omega),
    List.getD_eq_getElem l1 d1 h1, List.getD_eq_getElem l2 d2 h2]
  simp

/-! ## Claim theorems: MoCo training step -/

/-- C5: in every training step the matrix handed to the memory-bank push
consists of L2-normalized teacher-encoder rows (every row has unit L2 norm,
here squared norm 1 in exact arithmetic), in both the ddp and the local
path, and pushing such a matrix keeps every row of the bank unit-norm. -/
theorem pushed_keys_unit_norm (useDdp : Bool) (touts nouts : List (List (List ℚ)))
    (idxss : List (List Nat)) (w : Nat)
    (hnorm : List.Forall₂ (List.Forall₂ IsL2Normalization) touts nouts)
    (hidx : ∀ idxs ∈ idxss, ∀ i ∈ idxs, i < (concat_all_gather nouts).length) :
    UnitRows (pushedKeys useDdp nouts idxss w)
    ∧ ∀ mb : MemoryBank (List ℚ), UnitRows mb.memory →
        UnitRows (mb.push (pushedKeys useDdp nouts idxss w)).memory := by
  have hnrows : ∀ m ∈ nouts, UnitRows m := by
    intro m hm r hr
    obtain ⟨tm, _, hf2⟩ := forall2_exists_left hnorm m hm
    obtain ⟨x, _, hxr⟩ := forall2_exists_left hf2 r hr
    exact hxr.unit
  have hpk : UnitRows (pushedKeys useDdp nouts idxss w) := by
    unfold pushedKeys
    cases useDdp with
    | false =>
      rw [if_neg Bool.false_ne_true]
      rcases getD_mem_or_default nouts w [] with h | h
      · exact hnrows _ h
      · intro r hr
        rw [h] at hr
        cases hr
    | true =>
      rw [if_pos rfl]
      intro r hr
      obtain ⟨m, hm, hrm⟩ := List.mem_flatten.mp hr
      obtain ⟨idxs, hidxs, rfl⟩ := List.mem_map.mp hm
      unfold batch_unshuffle_ddp at hrm
      obtain ⟨i, hi, rfl⟩ := List.mem_map.mp hrm
      have hlt := hidx idxs hidxs i hi
      have hmem := getD_mem (concat_all_gather nouts) i [] hlt
      obtain ⟨m2, hm2, hrm2⟩ := List.mem_flatten.mp hmem
      exact hnrows m2 hm2 _ hrm2
  exact ⟨hpk, fun mb hmb => unitRows_push mb _ hmb hpk⟩

/-- Witness for C5 at one worker whose teacher output row [1, 0] is already
unit norm, with identity unshuffle indices, in ddp mode. -/
theorem pushed_keys_unit_norm_witness :
    UnitRows (pushedKeys true [[[1, 0]]] [[0]] 0)
    ∧ ∀ mb : MemoryBank (List ℚ), UnitRows mb.memory →
        UnitRows (mb.push (pushedKeys true [[[1, 0]]] [[0]] 0)).memory :=
  pushed_keys_unit_norm true [[[1, 0]]] [[[1, 0]]] [[0]] 0
    (List.Forall₂.cons
      (List.Forall₂.cons
        ⟨1, by norm_num, by norm_num [sumSq], by norm_num⟩ List.Forall₂.nil)
      List.Forall₂.nil)
    (by
      intro idxs hidxs i hi
      simp only [List.mem_singleton] at hidxs
      subst hidxs
      simp only [List.mem_singleton] at hi
      subst hi
      simp [concat_all_gather])

/-- C6: every memory-bank update pushes the globally gathered batch (the
concatenation of every worker's keys) in ddp mode — the same bank state for
every worker — and the local batch unchanged otherwise; the bank's push is
handed the already-gathered batch and performs no gather itself. -/
theorem dequeue_and_enqueue_gather (allKeys : List (List (List ℚ))) (w : Nat)
    (mb : MemoryBank (List ℚ)) :
    dequeue_and_enqueue true allKeys w mb = mb.push (concat_all_gather allKeys)
    ∧ dequeue_and_enqueue false allKeys w mb = mb.push (allKeys.getD w [])
    ∧ (∀ r : List ℚ, r ∈ concat_all_gather allKeys ↔ ∃ km ∈ allKeys, r ∈ km)
    ∧ ∀ w' : Nat,
        dequeue_and_enqueue true allKeys w' mb = dequeue_and_enqueue true allKeys w mb := by
  refine ⟨rfl, rfl, ?_, fun w' => rfl⟩
  intro r
  exact List.mem_flatten

/-- C10: in a training step the negative logits are dot products of the
queries with the rows of the bank as it was before that step's keys are
enqueued — the push happens after the similarity computation — so, when the
step's keys are absent from the pre-step bank, no negative-example row is
one of this batch's keys. -/
theorem get_loss_negatives_pre_push (temp : ℚ) (mb : MemoryBank (List ℚ))
    (studentOut teacherOut : List (List ℚ))
    (hfresh : ∀ r ∈ teacherOut, r ∉ mb.memory) :
    (∀ i, i < studentOut.length → i < teacherOut.length →
        (get_loss_step temp mb studentOut teacherOut).1.getD i []
          = dot (studentOut.getD i []) (teacherOut.getD i []) / temp
              :: mb.memory.map (fun k => dot (studentOut.getD i []) k / temp))
    ∧ (get_loss_step temp mb studentOut teacherOut).2 = mb.push teacherOut
    ∧ ∀ j, j < mb.memory.length → mb.memory.getD j [] ∉ teacherOut := by
  refine ⟨?_, rfl, ?_⟩
  · intro i h1 h2
    unfold get_loss_step
    rw [getD_map_of_lt _ _ i [] []
      (by rw [List.length_zipWith, List.length_zipWith, List.length_map]; omega)]
    rw [getD_zipWith_of_lt _ _ _ i [] 0 []
      (by rw [List.length_zipWith]; omega) (by rw [List.length_map]; omega)]
    rw [List.map_cons]
    congr 1
    · rw [getD_zipWith_of_lt dot studentOut teacherOut i 0 [] [] h1 h2]
    · rw [getD_map_of_lt _ _ i [] [] h1, List.map_map]
      rfl
  · intro j hj hmem
    exact hfresh _ hmem (getD_mem mb.memory j [] hj)

/-- Witness for C10 with a one-row batch whose key [1, 0] is not yet in the
bank. -/
theorem get_loss_negatives_pre_push_witness :
    (∀ i, i < ([[1, 0]] : List (List ℚ)).length → i < ([[1, 0]] : List (List ℚ)).length →
        (get_loss_step 1 ⟨[[0, 1]], 0⟩ [[1, 0]] [[1, 0]]).1.getD i []
          = dot (([[1, 0]] : List (List ℚ)).getD i [])
                (([[1, 0]] : List (List ℚ)).getD i []) / 1
              :: ([[0, 1]] : List (List ℚ)).map
                  (fun k => dot (([[1, 0]] : List (List ℚ)).getD i []) k / 1))
    ∧ (get_loss_step 1 ⟨[[0, 1]], 0⟩ [[1, 0]] [[1, 0]]).2
        = MemoryBank.push ⟨[[0, 1]], 0⟩ [[1, 0]]
    ∧ ∀ j, j < ([[0, 1]] : List (List ℚ)).length →
        ([[0, 1]] : List (List ℚ)).getD j [] ∉ ([[1, 0]] : List (List ℚ)) :=
  get_loss_negatives_pre_push 1 ⟨[[0, 1]], 0⟩ [[1, 0]] [[1, 0]] (by decide)

/-! ## Claim theorems: group-id extraction -/

/-- C3: contrary to the claim, get_group_ids does not combine the sensitive
attribute s with the label y. The label extraction never fills y in (both
branches of the closure assign _s), and the combination branch is dead, so
the dataset with s = [0, 0] and y = [0, 1] — two samples with distinct
(s, y) combinations — receives group ids [0, 0], not distinct ids. -/
theorem get_group_ids_ignores_y :
    get_group_ids (Option.some [0, 0]) (Option.some [0, 1]) = Except.ok [0, 0]
    ∧ extract_labels_from_dataset (Option.some [0, 0]) (Option.some [0, 1])
        = Except.ok (Option.some [0, 0], Option.none) :=
  ⟨rfl, rfl⟩

/-! ## Claim theorems: data-module length query -/

/-- C8: requesting the number of training batches while the training mode is
step is an immediate error, for every sample count, batch size and drop_last
flag, while epoch mode always succeeds. -/
theorem num_train_batches_step_mode_error (numSamples batchSize : Nat) (dropLast : Bool) :
    num_train_batches TrainingMode.step numSamples batchSize dropLast
      = Except.error
          "num_train_batches can only be computed when training_mode is set to epoch."
    ∧ num_train_batches TrainingMode.epoch numSamples batchSize dropLast
      = Except.ok (num_batches_per_epoch numSamples batchSize dropLast) :=
  ⟨rfl, rfl⟩

/-! ## Claim theorems: CrossEntropy loss -/

/-- C9: every successfully constructed CrossEntropy module stores a
ReductionType enum member (strings are converted at initialization), and its
forward always returns the sum of the optionally instance-weighted
per-instance losses — the mean and none branches, which compare the enum
against string literals, are never taken. -/
theorem cross_entropy_forward_sum (cw : Option (List ℚ)) (ii : Int)
    (red : ReductionType ⊕ String) (ce : CrossEntropy)
    (h : CrossEntropy.init cw ii red = Except.ok ce) :
    (∃ r : ReductionType, ce.reduction = Sum.inl r)
    ∧ ∀ (losses : List ℚ) (iw : Option (List ℚ)),
        ce.forward losses iw = [(appliedWeight losses iw).sum] := by
  have hred : ∃ r : ReductionType, ce.reduction = Sum.inl r := by
    cases red with
    | inl r =>
      unfold CrossEntropy.init at h
      simp only [Except.ok.injEq] at h
      subst h
      exact ⟨r, rfl⟩
    | inr s =>
      have h2 :
          (match str_to_enum s with
            | Except.ok r => Except.ok (⟨cw, ii, Sum.inl r⟩ : CrossEntropy)
            | Except.error e => Except.error e) = Except.ok ce := h
      cases hs : str_to_enum s with
      | ok r =>
        rw [hs] at h2
        simp only [Except.ok.injEq] at h2
        subst h2
        exact ⟨r, rfl⟩
      | error e =>
        rw [hs] at h2
        exact absurd h2 (by simp)
  refine ⟨hred, ?_⟩
  intro losses iw
  obtain ⟨r, hr⟩ := hred
  unfold CrossEntropy.forward
  rw [hr]
  rfl

/-- Witness for C9: construction from the string "mean" yields the enum, and
forward sums the weighted losses. -/
theorem cross_entropy_forward_sum_witness :
    (∃ r : ReductionType,
        (⟨Option.none, -100, Sum.inl ReductionType.mean⟩ : CrossEntropy).reduction
          = Sum.inl r)
    ∧ ∀ (losses : List ℚ) (iw : Option (List ℚ)),
        (⟨Option.none, -100, Sum.inl ReductionType.mean⟩ : CrossEntropy).forward losses iw
          = [(appliedWeight losses iw).sum] :=
  cross_entropy_forward_sum Option.none (-100) (Sum.inr "mean") _ rfl

end Conduit
